import Mathlib

/-!
Verification of the pyssari client library (src/pyssari.py).

The development shallowly embeds the pure/reshaping core of the source:
* `flatten` (pyssari.py lines 47-55), the Record Flattener;
* `valid_date` (lines 36-41);
* `get_asset_price_history` (lines 148-189, the validation/fetch part);
* `get_assets_price_history_pd` (lines 191-255), the Multi-Asset Aligner
  and Tabular Assembler;
* `get_assets_metrics_pd` (lines 258-295), the metrics flatten/filter path.

JSON values are embedded as the inductive `JVal`; Python dicts are embedded
as association lists in insertion order (`JDict`), with `dictUpdate`/`dictOf`
reproducing dict construction (later duplicate keys overwrite the value of
the first occurrence, keeping its position).  The HTTP layer is an explicit
oracle parameter `fetch : String -> ...`; every fallible operation returns
`Except PyErr _` together with the list of asset keys actually requested,
mirroring the order in which the Python code issues GET requests.
-/

/-- A JSON value, as produced by the Messari API and consumed by the
reshaping code.  Python `bool` is kept separate from `int` because
`isinstance(True, int)` holds in Python while `True` is not an int literal;
the embedding of `isinstance` accounts for this. -/
inductive JVal where
  | vnull : JVal
  | vbool : Bool → JVal
  | vint : Int → JVal
  | vfloat : Rat → JVal
  | vstr : String → JVal
  | vlist : List JVal → JVal
  | vdict : List (String × JVal) → JVal

/-- A Python dict of JSON values, as an association list in insertion order. -/
abbrev JDict := List (String × JVal)

/-- The keys of an association list, in order. -/
def keys {α : Type} (m : List (String × α)) : List String := m.map Prod.fst

/-- `m[k] = v` on a Python dict: if `k` is present, its (first) binding's value
is replaced in place; otherwise `(k, v)` is appended. -/
def dictUpdate {α : Type} (m : List (String × α)) (k : String) (v : α) :
    List (String × α) :=
  if (keys m).contains k then
    m.map (fun p => if p.1 = k then (k, v) else p)
  else m ++ [(k, v)]

/-- `dict(items)`: build a dict by inserting the pairs left to right. -/
def dictOf {α : Type} (items : List (String × α)) : List (String × α) :=
  items.foldl (fun m p => dictUpdate m p.1 p.2) []

/-- `m.get(k)`: first binding of `k`, if any. -/
def dictGet {α : Type} (m : List (String × α)) (k : String) : Option α :=
  (m.find? (fun p => p.1 == k)).map Prod.snd

/-- `new_key = parent_key + sep + k if parent_key else k`
(pyssari.py line 50). -/
def new_key (parent_key sep k : String) : String :=
  if parent_key = "" then k else parent_key ++ sep ++ k

/-- Is the value a mapping (`isinstance(v, MutableMapping)`)? -/
def isVDict : JVal → Bool
  | JVal.vdict _ => true
  | _ => false

/-- The item-accumulation loop of `flatten` (pyssari.py lines 48-54):
mapping values are recursed into (the recursive call being a full `flatten`,
hence the inner `dictOf`), any other value is a leaf appended with its
separator-joined key. -/
def flattenItems (sep parent_key : String) : JDict → JDict
  | [] => []
  | (k, JVal.vdict f) :: rest =>
      dictOf (flattenItems sep (new_key parent_key sep k) f) ++
        flattenItems sep parent_key rest
  | (k, v) :: rest =>
      (new_key parent_key sep k, v) :: flattenItems sep parent_key rest

/-- `flatten(d, parent_key='', sep='_')` (pyssari.py lines 47-55):
recursively collapse a nested dict into a single-level dict keyed by
separator-joined paths, returning `dict(items)`. -/
def flatten (d : JDict) (parent_key : String := "") (sep : String := "_") :
    JDict :=
  dictOf (flattenItems sep parent_key d)

/-! ### Re-nesting (the inverse direction of the round-trip law)

The source has no un-flattening function; the round-trip property of the
spec defines it as "re-nesting by splitting each flattened key on the
separator".  `splitChar`, `insertPath` and `unflatten` below implement
exactly that description. -/

/-- Split a character list at every occurrence of `c` (the separator);
`splitChar c [] = [[]]`, matching the usual string-split behaviour. -/
def splitChar (c : Char) : List Char → List (List Char)
  | [] => [[]]
  | x :: xs =>
      match splitChar c xs with
      | [] => [[]]
      | h :: t => if x = c then [] :: h :: t else (x :: h) :: t

/-- Split a string key into its path components at the separator char. -/
def splitKey (c : Char) (s : String) : List String :=
  (splitChar c s.data).map (fun l => String.mk l)

/-- Insert a value at a nested key path, creating intermediate mappings:
the re-nesting step of the round-trip law.  A non-mapping value sitting
where an intermediate mapping is needed is replaced by a fresh mapping. -/
def insertPath : JDict → List String → JVal → JDict
  | m, [], _ => m
  | m, [k], v => dictUpdate m k v
  | m, k :: k2 :: ks, v =>
      match dictGet m k with
      | some (JVal.vdict sub) =>
          dictUpdate m k (JVal.vdict (insertPath sub (k2 :: ks) v))
      | _ => dictUpdate m k (JVal.vdict (insertPath [] (k2 :: ks) v))

/-- Re-nest a flattened mapping by splitting each key on the separator. -/
def unflatten (c : Char) (items : JDict) : JDict :=
  items.foldl (fun m p => insertPath m (splitKey c p.1) p.2) []

/-! ### Specification helpers for the flattener -/

/-- The leaf paths of a nested dict together with their values, in the
order `flatten` visits them. -/
def flatPairs : JDict → List (List String × JVal)
  | [] => []
  | (k, JVal.vdict f) :: rest =>
      (flatPairs f).map (fun p => (k :: p.1, p.2)) ++ flatPairs rest
  | (k, v) :: rest => ([k], v) :: flatPairs rest

/-- Join a nonempty path with the separator string. -/
def joinPath (sep : String) : List String → String
  | [] => ""
  | [k] => k
  | k :: k2 :: ks => k ++ sep ++ joinPath sep (k2 :: ks)

/-- `k` does not contain the separator character. -/
def sepFree (c : Char) (s : String) : Bool := !(s.data.contains c)

/-- Well-formedness of a nested dict relative to a separator char `c`,
holding at every level: keys are nonempty, contain no `c`, and are
pairwise distinct (the last is automatic for genuine Python dicts, which
cannot bind one key twice at the same level). -/
def wfDict (c : Char) : JDict → Bool
  | [] => true
  | (k, v) :: rest =>
      (k != "") && sepFree c k && !((keys rest).contains k) &&
      (match v with
       | JVal.vdict f => wfDict c f
       | _ => true) && wfDict c rest

/-- No value anywhere in the nested dict is an empty mapping.
(`flatten` erases empty sub-mappings, so the round-trip law needs this.) -/
def noEmptyDicts : JDict → Bool
  | [] => true
  | (_, JVal.vdict f) :: rest => !f.isEmpty && noEmptyDicts f && noEmptyDicts rest
  | _ :: rest => noEmptyDicts rest

/-! ### Metrics flattening and the numeric post-filter
(`get_assets_metrics_pd`, pyssari.py lines 258-295) -/

/-- `v is not None`. -/
def is_not_none : JVal → Bool
  | JVal.vnull => false
  | _ => true

/-- `isinstance(v, int)`.  In Python, `bool` is a subclass of `int`, so
boolean values satisfy this check. -/
def isinstance_int : JVal → Bool
  | JVal.vint _ => true
  | JVal.vbool _ => true
  | _ => false

/-- `isinstance(v, float)`. -/
def isinstance_float : JVal → Bool
  | JVal.vfloat _ => true
  | _ => false

/-- The `flatten_df` branch of `get_assets_metrics_pd` (lines 282-292):
flatten the metrics record, drop `None` values, then keep only values that
are `int` or `float` instances. -/
def metrics_flat_row (data : JDict) : JDict :=
  let flattened := flatten data "" "_"
  let filtered := flattened.filter (fun p => is_not_none p.2)
  filtered.filter (fun p => isinstance_int p.2 || isinstance_float p.2)

/-- `get_assets_metrics_pd` (lines 258-295): one row of metrics per asset,
keyed by asset (`D[asset] = ...` insertion/overwrite order), flattening and
filtering each record when `flatten_df` is set.  The final
`pd.DataFrame.from_dict` assembly across assets (missing fields become NaN)
is not needed by any claim and is left as the per-asset dict. -/
def get_assets_metrics_pd (getMetrics : String → JDict)
    (list_of_assets : List String) (flatten_df : Bool) : List (String × JDict) :=
  dictOf (list_of_assets.map (fun asset =>
    (asset, if flatten_df then metrics_flat_row (getMetrics asset)
            else getMetrics asset)))

/-! ### Date validation (`valid_date`, pyssari.py lines 36-41)

`datetime.strptime(date_text, "%Y-%m-%d")`: `%Y` matches exactly four
digits, `%m` and `%d` match one or two digits, the whole string must be
consumed, and the resulting calendar date must exist (month 1-12, day in
range for the month and leap-year rule, year at least 1).

Scope of the model: digits are modelled as ASCII `0-9`.  CPython's
`strptime` additionally accepts non-ASCII Unicode decimal digits in the
`\d`-based parts of its patterns (the year, and the second digit of a
two-digit day), so on non-ASCII input the model can report `false` where
the source parses.  Theorems that rely on `valid_date = false` therefore
restrict themselves to ASCII date strings (`asciiStr`); the
`valid_date = true` direction is sound unconditionally. -/

/-- Nonempty and all decimal digits. -/
def isDigits (s : String) : Bool := s.length > 0 && s.data.all Char.isDigit

/-- All characters are ASCII: the fragment of strings on which the
embedded `valid_date` agrees with CPython `strptime` in both directions. -/
def asciiStr (s : String) : Bool := s.data.all (fun ch => ch.toNat < 128)

/-- Numeric value of a digit string. -/
def parseNat (s : String) : Nat :=
  s.data.foldl (fun acc ch => acc * 10 + (ch.toNat - 48)) 0

/-- Gregorian leap year. -/
def isLeap (y : Nat) : Bool := (y % 4 == 0 && y % 100 != 0) || (y % 400 == 0)

/-- Days in a month. -/
def daysInMonth (y m : Nat) : Nat :=
  if m = 2 then (if isLeap y then 29 else 28)
  else if m = 4 || m = 6 || m = 9 || m = 11 then 30
  else 31

/-- `valid_date` (pyssari.py lines 36-41): `True` iff
`datetime.strptime(date_text, "%Y-%m-%d")` succeeds. -/
def valid_date (date_text : String) : Bool :=
  match (splitChar '-' date_text.data).map (fun l => String.mk l) with
  | [ys, ms, ds] =>
      isDigits ys && ys.length == 4 && isDigits ms && ms.length ≤ 2 &&
      isDigits ds && ds.length ≤ 2 &&
      (let y := parseNat ys
       let m := parseNat ms
       let d := parseNat ds
       1 ≤ y && 1 ≤ m && m ≤ 12 && 1 ≤ d && d ≤ daysInMonth y m)
  | _ => false

/-! ### Timestamp to date string
(`datetime.fromtimestamp(int(t/1000)).strftime("%Y-%m-%d")`, lines 224-230)

`int(t/1000)` truncates toward zero; `fromtimestamp` is modelled at UTC
(the Python call uses the process-local timezone, which the claims do not
pin down; only day-granularity arithmetic matters here). -/

/-- Civil date (year, month, day) from days since 1970-01-01 (proleptic
Gregorian). -/
def civilFromDays (z0 : Int) : Int × Int × Int :=
  let z := z0 + 719468
  let era : Int := z.ediv 146097
  let doe : Int := z.emod 146097
  let yoe : Int :=
    (doe - doe.ediv 1460 + doe.ediv 36524 - doe.ediv 146096).ediv 365
  let y : Int := yoe + era * 400
  let doy : Int := doe - (365 * yoe + yoe.ediv 4 - yoe.ediv 100)
  let mp : Int := (5 * doy + 2).ediv 153
  let d : Int := doy - (153 * mp + 2).ediv 5 + 1
  let m : Int := if mp < 10 then mp + 3 else mp - 9
  (if m ≤ 2 then y + 1 else y, m, d)

/-- Left-pad a decimal string with zeros to the given width. -/
def zfill (w : Nat) (s : String) : String :=
  String.mk (List.replicate (w - s.length) '0') ++ s

/-- `datetime.fromtimestamp(secs).strftime("%Y-%m-%d")` at UTC, for the
post-epoch timestamps the claims use. -/
def pyDateStr (secs : Int) : String :=
  match civilFromDays (secs.ediv 86400) with
  | (y, m, d) =>
      zfill 4 (toString y.toNat) ++ "-" ++ zfill 2 (toString m.toNat) ++ "-" ++
        zfill 2 (toString d.toNat)

/-! ### The Multi-Asset Aligner
(`get_assets_price_history_pd`, pyssari.py lines 191-255)

A time-series point is a `(timestamp-ms, value)` pair; values are embedded
as rationals (`np.zeros` / price floats).  Failures are surfaced as
`Except PyErr`; the constructors name the spec's error kinds, each comment
recording the concrete Python exception that surfaces it. -/

/-- Error kinds of the embedded operations. -/
inductive PyErr where
  /-- `AssertionError` from `assert valid_date(...)` (lines 181-182);
  the spec's `InvalidDateError` kind. -/
  | invalidDateError : PyErr
  /-- `IndexError` from `asset_data[0]` on an empty asset list (line 223);
  the spec's `EmptyInputError` kind. -/
  | emptyInputError : PyErr
  /-- `IndexError` from slicing column 0 or 1 out of an empty series
  (lines 223, 234). -/
  | indexError : PyErr
  /-- pandas `ValueError`: a column's length differs from the index length
  in `pd.DataFrame(data, index=dates)` (line 255). -/
  | valueError : PyErr
deriving DecidableEq

/-- `all_eq` (pyssari.py lines 26-27): `len(set(iterator)) <= 1`. -/
def all_eq (l : List Nat) : Bool := l.dedup.length ≤ 1

/-- `merge_dicts` (lines 30-34): fold `out.update(d)` over the dicts. -/
def merge_dicts {α : Type} (dicts : List (List (String × α))) :
    List (String × α) :=
  dicts.foldl (fun out d => d.foldl (fun out p => dictUpdate out p.1 p.2) out) []

/-- Python `max` over a list; the call site (line 247) always passes a
nonempty list, for which the default for `[]` is irrelevant. -/
def pyListMax : List Nat → Nat
  | [] => 0
  | x :: xs => xs.foldl max x

/-- `pd.DataFrame(data, index=dates)` (line 255): a rectangular table. -/
structure DataFrame where
  index : List String
  cols : List (String × List Rat)
deriving DecidableEq

/-- The padding step (lines 241-252): if the per-asset column lengths are
not all equal, left-pad each column with zeros
(`np.concatenate([np.zeros(max_len - len(v)), v])`) to the maximum length. -/
def pad_columns (data : List (String × List Rat)) : List (String × List Rat) :=
  let lens := data.map (fun p => p.2.length)
  let max_len := pyListMax lens
  if all_eq lens then data
  else data.map (fun p => (p.1, List.replicate (max_len - p.2.length) (0 : Rat) ++ p.2))

/-- Lines 222-255 of `get_assets_price_history_pd`, after the per-asset
fetches: derive the date axis from the first asset's timestamps, extract
the value columns, merge, pad, and build the DataFrame.  `asset_data[0]`
on an empty list raises (the spec's `EmptyInputError`); slicing a column
out of an empty per-asset array raises `IndexError`; `pd.DataFrame` raises
`ValueError` unless every column's length equals the index length. -/
def alignPriceData (list_of_assets : List String)
    (asset_data : List (List (Int × Rat))) : Except PyErr DataFrame :=
  match asset_data with
  | [] => Except.error PyErr.emptyInputError
  | first :: _ =>
      if asset_data.any List.isEmpty then Except.error PyErr.indexError
      else
        let dates := first.map (fun p => pyDateStr (Int.tdiv p.1 1000))
        let data := merge_dicts
          ((list_of_assets.zip asset_data).map (fun p => [(p.1, p.2.map Prod.snd)]))
        let padded := pad_columns data
        if padded.all (fun p => p.2.length == dates.length) then
          Except.ok ⟨dates, padded⟩
        else Except.error PyErr.valueError

/-- `get_asset_price_history` (lines 148-189): a falsy (`None` or empty)
`end_date` is first replaced by today's date, a falsy `start_date` by the
date one year ago (lines 172-178); then both dates are asserted valid and
the single GET request is issued.  The defaults are current-date dependent,
so they are oracle parameters `default_start_date`/`default_end_date`
(the strings the source computes with `strftime`); the falsy case is the
empty string, the only falsy Python string (callers passing `None` behave
identically).  The second component lists the asset keys actually
requested, in order. -/
def get_asset_price_history (fetch : String → List (Int × Rat))
    (default_start_date default_end_date : String)
    (asset_key start_date end_date : String) :
    Except PyErr (List (Int × Rat)) × List String :=
  let end_date := if end_date = "" then default_end_date else end_date
  let start_date := if start_date = "" then default_start_date else start_date
  if valid_date start_date = false then (Except.error PyErr.invalidDateError, [])
  else if valid_date end_date = false then (Except.error PyErr.invalidDateError, [])
  else (Except.ok (fetch asset_key), [asset_key])

/-- The `list(map(...))` of lines 213-221: fetch each asset's history in
order, aborting on the first failure, and record the requests issued. -/
def mapFetch (fetch : String → List (Int × Rat))
    (default_start_date default_end_date : String)
    (start_date end_date : String) :
    List String → Except PyErr (List (List (Int × Rat))) × List String
  | [] => (Except.ok [], [])
  | a :: rest =>
      match get_asset_price_history fetch default_start_date default_end_date
          a start_date end_date with
      | (Except.error e, reqs) => (Except.error e, reqs)
      | (Except.ok s, reqs) =>
          match mapFetch fetch default_start_date default_end_date
              start_date end_date rest with
          | (Except.error e, reqs2) => (Except.error e, reqs ++ reqs2)
          | (Except.ok ss, reqs2) => (Except.ok (s :: ss), reqs ++ reqs2)

/-- `get_assets_price_history_pd` (lines 191-255): fetch every asset's
series, then align them into one DataFrame.  The second component is the
list of GET requests issued. -/
def get_assets_price_history_pd (fetch : String → List (Int × Rat))
    (default_start_date default_end_date : String)
    (list_of_assets : List String) (start_date end_date : String) :
    Except PyErr DataFrame × List String :=
  match mapFetch fetch default_start_date default_end_date
      start_date end_date list_of_assets with
  | (Except.error e, reqs) => (Except.error e, reqs)
  | (Except.ok asset_data, reqs) => (alignPriceData list_of_assets asset_data, reqs)

/-! ### Concrete fetch oracles used by scenario theorems and witnesses -/

/-- The spec's scenario: asset `A` has two daily points, asset `B` only the
second one. -/
def exFetchAB : String → List (Int × Rat) := fun a =>
  if a = "A" then [(0, 10), (86400000, 20)]
  else if a = "B" then [(86400000, 5)] else []

/-- First asset's series strictly shorter than the second's. -/
def exFetchBA : String → List (Int × Rat) := fun a =>
  if a = "A" then [(0, 10)]
  else if a = "B" then [(0, 1), (86400000, 2)] else []

/-- Every asset's series is empty. -/
def exFetchEmpty : String → List (Int × Rat) := fun _ => []

/-- Two assets with series of equal length 2. -/
def exFetchEq : String → List (Int × Rat) := fun a =>
  if a = "A" then [(0, 10), (86400000, 20)]
  else if a = "B" then [(0, 3), (86400000, 4)] else []

/-- Folding `insertPath` over already-split path/value pairs; `unflatten`
coincides with this once each key has been split back into its path. -/
def foldIns (m : JDict) (pairs : List (List String × JVal)) : JDict :=
  pairs.foldl (fun acc q => insertPath acc q.1 q.2) m

deriving instance DecidableEq for Except

theorem singleton_underscore : String.singleton '_' = "_" := rfl

theorem valid_date_examples :
    valid_date "2021-01-17" = true ∧ valid_date "2021-13-40" = false ∧
    valid_date "2020-02-29" = true ∧ valid_date "2021-02-29" = false := by
  decide

theorem pyDateStr_examples :
    pyDateStr 0 = "1970-01-01" ∧ pyDateStr 86400 = "1970-01-02" ∧
    pyDateStr 1609459200 = "2021-01-01" := by
  decide

/-! ### Association-list (Python dict) lemmas -/

theorem keys_contains_iff {α : Type} (m : List (String × α)) (k : String) :
    (keys m).contains k = true ↔ k ∈ keys m := by
  simp [List.contains, List.elem_iff]

theorem keys_append {α : Type} (m n : List (String × α)) :
    keys (m ++ n) = keys m ++ keys n := by
  simp [keys]

@[simp] theorem keys_nil {α : Type} : keys ([] : List (String × α)) = [] := rfl

@[simp] theorem keys_cons {α : Type} (p : String × α) (l : List (String × α)) :
    keys (p :: l) = p.1 :: keys l := rfl

theorem map_if_key_eq_self {α : Type} {m : List (String × α)} {k : String}
    (v : α) (hm : ∀ p ∈ m, p.1 ≠ k) :
    m.map (fun p => if p.1 = k then (k, v) else p) = m := by
  induction m with
  | nil => rfl
  | cons q rest ih =>
      rw [List.map_cons, if_neg (hm q (by simp)),
        ih (fun p hp => hm p (by simp [hp]))]

theorem dictUpdate_of_not_mem {α : Type} {m : List (String × α)} {k : String}
    (v : α) (h : k ∉ keys m) : dictUpdate m k v = m ++ [(k, v)] := by
  unfold dictUpdate
  rw [if_neg]
  intro hc
  exact h ((keys_contains_iff m k).mp hc)

theorem dictUpdate_append_right {α : Type} {m : List (String × α)}
    (n : List (String × α)) {k : String} (v : α) (h : k ∉ keys m) :
    dictUpdate (m ++ n) k v = m ++ dictUpdate n k v := by
  have hm : ∀ p ∈ m, p.1 ≠ k := by
    intro p hp hpk
    exact h (hpk ▸ List.mem_map_of_mem Prod.fst hp)
  unfold dictUpdate
  by_cases hn : (keys n).contains k = true
  · have : (keys (m ++ n)).contains k = true := by
      rw [keys_contains_iff, keys_append, List.mem_append]
      exact Or.inr ((keys_contains_iff n k).mp hn)
    rw [if_pos this, if_pos hn, List.map_append, map_if_key_eq_self v hm]
  · have : ¬ (keys (m ++ n)).contains k = true := by
      rw [keys_contains_iff, keys_append, List.mem_append]
      rintro (hk | hk)
      · exact h hk
      · exact hn ((keys_contains_iff n k).mpr hk)
    rw [if_neg this, if_neg hn, List.append_assoc]

theorem dictUpdate_singleton_of_mem {α : Type} {m : List (String × α)}
    {k : String} (v w : α) (h : k ∉ keys m) :
    dictUpdate (m ++ [(k, w)]) k v = m ++ [(k, v)] := by
  rw [dictUpdate_append_right _ v h]
  unfold dictUpdate
  rw [if_pos]
  · simp [keys]
  · rw [keys_contains_iff]
    simp [keys]

theorem foldl_dictUpdate_fresh {α : Type} :
    ∀ (l m : List (String × α)), (keys l).Nodup →
      (∀ k ∈ keys l, k ∉ keys m) →
      l.foldl (fun acc p => dictUpdate acc p.1 p.2) m = m ++ l := by
  intro l
  induction l with
  | nil => intro m _ _; simp
  | cons p rest ih =>
      intro m hnd hfresh
      rw [keys_cons, List.nodup_cons] at hnd
      have hfreshr : ∀ k ∈ keys rest, k ∉ keys (m ++ [p]) := by
        intro k hk
        rw [keys_append, List.mem_append]
        rintro (h | h)
        · exact hfresh k (by simp [hk]) h
        · simp at h
          exact hnd.1 (h ▸ hk)
      rw [List.foldl_cons,
        dictUpdate_of_not_mem p.2 (hfresh p.1 (by simp)),
        ih (m ++ [p]) hnd.2 hfreshr, List.append_assoc]
      rfl

theorem dictOf_eq_self {α : Type} {l : List (String × α)}
    (h : (keys l).Nodup) : dictOf l = l := by
  unfold dictOf
  rw [foldl_dictUpdate_fresh l [] h (by simp [keys])]
  simp

theorem dictGet_append_right {α : Type} {m : List (String × α)}
    (n : List (String × α)) {k : String} (h : k ∉ keys m) :
    dictGet (m ++ n) k = dictGet n k := by
  unfold dictGet
  rw [List.find?_append]
  have : m.find? (fun p => p.1 == k) = none := by
    rw [List.find?_eq_none]
    intro p hp hpk
    exact h ((beq_iff_eq.mp hpk) ▸ List.mem_map_of_mem Prod.fst hp)
  rw [this]
  rfl

/-! ### Splitting and joining key paths -/

theorem string_mk_data (s : String) : String.mk s.data = s := rfl

theorem sepFree_iff {c : Char} {s : String} :
    sepFree c s = true ↔ c ∉ s.data := by
  simp [sepFree, List.contains, List.elem_iff]

theorem splitChar_ne_nil (c : Char) : ∀ l : List Char, splitChar c l ≠ [] := by
  intro l
  induction l with
  | nil => simp [splitChar]
  | cons x xs ih =>
      rw [splitChar]
      rcases hs : splitChar c xs with _ | ⟨h, t⟩
      · exact absurd hs ih
      · by_cases hx : x = c <;> simp [hx]

theorem splitChar_of_not_mem {c : Char} :
    ∀ {l : List Char}, c ∉ l → splitChar c l = [l] := by
  intro l
  induction l with
  | nil => intro _; rfl
  | cons x xs ih =>
      intro h
      rw [splitChar, ih (fun hc => h (List.mem_cons_of_mem x hc))]
      have hx : ¬ x = c := fun hx => h (hx ▸ List.mem_cons_self x xs)
      simp [hx]

theorem splitChar_append (c : Char) :
    ∀ {a : List Char} (b : List Char), c ∉ a →
      splitChar c (a ++ c :: b) = a :: splitChar c b := by
  intro a
  induction a with
  | nil =>
      intro b _
      rw [List.nil_append, splitChar]
      rcases hs : splitChar c b with _ | ⟨h, t⟩
      · exact absurd hs (splitChar_ne_nil c b)
      · simp
  | cons x xs ih =>
      intro b h
      rw [List.cons_append, splitChar,
        ih b (fun hc => h (List.mem_cons_of_mem x hc))]
      have hx : ¬ x = c := fun hx => h (hx ▸ List.mem_cons_self x xs)
      simp [hx]

theorem splitKey_of_sepFree {c : Char} {s : String} (h : sepFree c s = true) :
    splitKey c s = [s] := by
  rw [splitKey, splitChar_of_not_mem (sepFree_iff.mp h), List.map_cons,
    List.map_nil, string_mk_data]

theorem splitKey_joinPath {c : Char} :
    ∀ pa : List String, pa ≠ [] → (∀ x ∈ pa, sepFree c x = true) →
      splitKey c (joinPath (String.singleton c) pa) = pa := by
  intro pa
  induction pa with
  | nil => intro h _; exact absurd rfl h
  | cons k rest ih =>
      intro _ hfree
      rcases rest with _ | ⟨k2, ks⟩
      · exact splitKey_of_sepFree (hfree k (by simp))
      · rw [joinPath, splitKey]
        have hdata : (k ++ String.singleton c ++ joinPath (String.singleton c) (k2 :: ks)).data
            = k.data ++ c :: (joinPath (String.singleton c) (k2 :: ks)).data := by
          rw [String.data_append, String.data_append, List.append_assoc]
          rfl
        rw [hdata,
          splitChar_append c _ (sepFree_iff.mp (hfree k (by simp))),
          List.map_cons, string_mk_data]
        have := ih (by simp) (fun x hx => hfree x (by simp [hx]))
        rw [splitKey] at this
        rw [this]

/-! ### Equation lemmas for the recursive flattener definitions -/

theorem flattenItems_nil (sep parent_key : String) :
    flattenItems sep parent_key [] = [] := by
  rw [flattenItems]

theorem flattenItems_cons_dict (sep parent_key k : String) (f rest : JDict) :
    flattenItems sep parent_key ((k, JVal.vdict f) :: rest) =
      dictOf (flattenItems sep (new_key parent_key sep k) f) ++
        flattenItems sep parent_key rest := by
  rw [flattenItems]

theorem flattenItems_cons_leaf (sep parent_key : String) {k : String} {v : JVal}
    (rest : JDict) (hv : isVDict v = false) :
    flattenItems sep parent_key ((k, v) :: rest) =
      (new_key parent_key sep k, v) :: flattenItems sep parent_key rest := by
  cases v
  case vdict f => simp [isVDict] at hv
  all_goals rw [flattenItems]
  all_goals intro f h
  all_goals exact JVal.noConfusion h

theorem flatPairs_nil : flatPairs [] = [] := by rw [flatPairs]

theorem flatPairs_cons_dict (k : String) (f rest : JDict) :
    flatPairs ((k, JVal.vdict f) :: rest) =
      (flatPairs f).map (fun p => (k :: p.1, p.2)) ++ flatPairs rest := by
  rw [flatPairs]

theorem flatPairs_cons_leaf {k : String} {v : JVal} (rest : JDict)
    (hv : isVDict v = false) :
    flatPairs ((k, v) :: rest) = ([k], v) :: flatPairs rest := by
  cases v
  case vdict f => simp [isVDict] at hv
  all_goals rw [flatPairs]
  all_goals intro f h
  all_goals exact JVal.noConfusion h

theorem noEmptyDicts_cons_dict (k : String) (f rest : JDict) :
    noEmptyDicts ((k, JVal.vdict f) :: rest) =
      (!f.isEmpty && noEmptyDicts f && noEmptyDicts rest) := by
  rw [noEmptyDicts]

theorem noEmptyDicts_cons_leaf {v : JVal} (k : String) (rest : JDict)
    (hv : isVDict v = false) :
    noEmptyDicts ((k, v) :: rest) = noEmptyDicts rest := by
  cases v
  case vdict f => simp [isVDict] at hv
  all_goals rw [noEmptyDicts]
  all_goals intro k2 f h
  all_goals exact JVal.noConfusion (congrArg Prod.snd h)

theorem wfDict_cons_dict (c : Char) (k : String) (f rest : JDict) :
    wfDict c ((k, JVal.vdict f) :: rest) =
      ((k != "") && sepFree c k && !((keys rest).contains k) &&
        wfDict c f && wfDict c rest) := by
  rw [wfDict]

theorem wfDict_cons_leaf (c : Char) {v : JVal} (k : String) (rest : JDict)
    (hv : isVDict v = false) :
    wfDict c ((k, v) :: rest) =
      ((k != "") && sepFree c k && !((keys rest).contains k) &&
        wfDict c rest) := by
  cases v
  case vdict f => simp [isVDict] at hv
  all_goals rw [wfDict]
  all_goals simp

theorem wfDict_nil (c : Char) : wfDict c [] = true := by rw [wfDict]

theorem noEmptyDicts_nil : noEmptyDicts [] = true := by rw [noEmptyDicts]

theorem isVDict_false_of_forall {v : JVal}
    (h : ∀ f, v = JVal.vdict f → False) : isVDict v = false := by
  cases v
  case vdict f => exact absurd rfl (h f)
  all_goals rfl

/-! ### Structure of the leaf paths -/

theorem flatPairs_head : ∀ d : JDict, ∀ q ∈ flatPairs d,
    ∃ h t, q.1 = h :: t ∧ h ∈ keys d := by
  intro d
  induction d using flatPairs.induct with
  | case1 => simp [flatPairs_nil]
  | case2 k f rest ihf ihr =>
      intro q hq
      rw [flatPairs_cons_dict] at hq
      rcases List.mem_append.mp hq with h | h
      · rcases List.mem_map.mp h with ⟨q2, _, rfl⟩
        exact ⟨k, q2.1, rfl, by simp⟩
      · rcases ihr q h with ⟨h1, t1, hq1, hk1⟩
        exact ⟨h1, t1, hq1, by simp [hk1]⟩
  | case3 k v rest hnd ihr =>
      intro q hq
      rw [flatPairs_cons_leaf rest (isVDict_false_of_forall hnd)] at hq
      rcases List.mem_cons.mp hq with h | h
      · exact ⟨k, [], by rw [h], by simp⟩
      · rcases ihr q h with ⟨h1, t1, hq1, hk1⟩
        exact ⟨h1, t1, hq1, by simp [hk1]⟩

theorem flatPairs_comp_good (c : Char) : ∀ d : JDict, wfDict c d = true →
    ∀ q ∈ flatPairs d, ∀ x ∈ q.1, x ≠ "" ∧ sepFree c x = true := by
  intro d
  induction d using flatPairs.induct with
  | case1 => simp [flatPairs_nil]
  | case2 k f rest ihf ihr =>
      intro hwf q hq x hx
      rw [wfDict_cons_dict] at hwf
      simp only [Bool.and_eq_true, bne_iff_ne, ne_eq] at hwf
      rw [flatPairs_cons_dict] at hq
      rcases List.mem_append.mp hq with h | h
      · rcases List.mem_map.mp h with ⟨q2, hq2, rfl⟩
        rcases List.mem_cons.mp hx with hxk | hxq
        · exact hxk ▸ ⟨hwf.1.1.1.1, hwf.1.1.1.2⟩
        · exact ihf hwf.1.2 q2 hq2 x hxq
      · exact ihr hwf.2 q h x hx
  | case3 k v rest hnd ihr =>
      intro hwf q hq x hx
      have hv := isVDict_false_of_forall hnd
      rw [wfDict_cons_leaf c k rest hv] at hwf
      simp only [Bool.and_eq_true, bne_iff_ne, ne_eq] at hwf
      rw [flatPairs_cons_leaf rest hv] at hq
      rcases List.mem_cons.mp hq with h | h
      · rw [h] at hx
        rcases List.mem_singleton.mp hx with rfl
        exact ⟨hwf.1.1.1, hwf.1.1.2⟩
      · exact ihr hwf.2 q h x hx

theorem flatPairs_ne_nil : ∀ d : JDict, noEmptyDicts d = true → d ≠ [] →
    flatPairs d ≠ [] := by
  intro d
  induction d using flatPairs.induct with
  | case1 => intro _ h; exact absurd rfl h
  | case2 k f rest ihf ihr =>
      intro hne _
      rw [noEmptyDicts_cons_dict] at hne
      simp only [Bool.and_eq_true] at hne
      rw [flatPairs_cons_dict]
      intro hcontra
      rcases List.append_eq_nil.mp hcontra with ⟨hl, _⟩
      have hf : flatPairs f ≠ [] := by
        apply ihf hne.1.2
        intro hfnil
        rw [hfnil] at hne
        simp [List.isEmpty] at hne
      exact hf (List.map_eq_nil_iff.mp hl)
  | case3 k v rest hnd ihr =>
      intro _ _
      rw [flatPairs_cons_leaf rest (isVDict_false_of_forall hnd)]
      simp

theorem flatPairs_paths_nodup (c : Char) : ∀ d : JDict, wfDict c d = true →
    ((flatPairs d).map Prod.fst).Nodup := by
  intro d
  induction d using flatPairs.induct with
  | case1 => simp [flatPairs_nil]
  | case2 k f rest ihf ihr =>
      intro hwf
      rw [wfDict_cons_dict] at hwf
      simp only [Bool.and_eq_true, bne_iff_ne, ne_eq] at hwf
      rw [flatPairs_cons_dict, List.map_append, List.nodup_append]
      refine ⟨?_, ihr hwf.2, ?_⟩
      · rw [List.map_map]
        have : (Prod.fst ∘ fun p : List String × JVal => ((k :: p.1 : List String), p.2))
            = (fun p : List String × JVal => k :: p.1) := rfl
        rw [this]
        have : (fun p : List String × JVal => k :: p.1)
            = (List.cons k) ∘ Prod.fst := rfl
        rw [this, ← List.map_map]
        exact (ihf hwf.1.2).map (fun a b h => by injection h)
      · intro pa hpa hpb
        rcases List.mem_map.mp hpb with ⟨q2, hq2, hq2e⟩
        rcases flatPairs_head rest q2 hq2 with ⟨h2, t2, hq21, hk2⟩
        rw [List.map_map] at hpa
        rcases List.mem_map.mp hpa with ⟨q, _, hqe⟩
        have hpa_head : ∃ t, pa = k :: t := ⟨q.1, by rw [← hqe]; rfl⟩
        rcases hpa_head with ⟨t, rfl⟩
        rw [hq21] at hq2e
        have : h2 = k := by injection hq2e
        have hkc : ¬((keys rest).contains k = true) := by
          rcases hwf with ⟨⟨⟨_, hc⟩, _⟩, _⟩
          simpa using hc
        exact hkc ((keys_contains_iff _ _).mpr (this ▸ hk2))
  | case3 k v rest hnd ihr =>
      intro hwf
      have hv := isVDict_false_of_forall hnd
      rw [wfDict_cons_leaf c k rest hv] at hwf
      simp only [Bool.and_eq_true, bne_iff_ne, ne_eq] at hwf
      rw [flatPairs_cons_leaf rest hv, List.map_cons, List.nodup_cons]
      refine ⟨?_, ihr hwf.2⟩
      intro hcontra
      rcases List.mem_map.mp hcontra with ⟨q, hq, hq1⟩
      rcases flatPairs_head rest q hq with ⟨h1, t1, hq11, hk1⟩
      rw [hq11] at hq1
      have : k = h1 := by injection hq1.symm
      have hkc : ¬((keys rest).contains k = true) := by
        rcases hwf with ⟨⟨_, hc⟩, _⟩
        simpa using hc
      exact hkc ((keys_contains_iff _ _).mpr (this ▸ hk1))

/-! ### Characterizing the flattened items as joined leaf paths -/

theorem string_append_assoc (a b c2 : String) : a ++ b ++ c2 = a ++ (b ++ c2) :=
  String.ext (by simp [String.data_append])

theorem string_ne_empty_of_data {s : String} (h : s.data ≠ []) : s ≠ "" :=
  fun he => h (by rw [he])

theorem new_key_inj {p sep x y : String}
    (h : new_key p sep x = new_key p sep y) : x = y := by
  unfold new_key at h
  by_cases hp : p = ""
  · simpa [hp] using h
  · rw [if_neg hp, if_neg hp] at h
    have hd : (p ++ sep).data ++ x.data = (p ++ sep).data ++ y.data := by
      have := congrArg String.data h
      simpa [String.data_append] using this
    exact String.ext (List.append_cancel_left hd)

theorem new_key_ne_empty {p sep k : String} (hk : k ≠ "") :
    new_key p sep k ≠ "" := by
  unfold new_key
  by_cases hp : p = ""
  · rw [if_pos hp]; exact hk
  · rw [if_neg hp]
    apply string_ne_empty_of_data
    simp only [String.data_append]
    intro hcontra
    rcases List.append_eq_nil.mp hcontra with ⟨h1, _⟩
    rcases List.append_eq_nil.mp h1 with ⟨h2, _⟩
    exact hp (String.ext h2)

theorem joinPath_cons (sep k : String) {rest : List String} (h : rest ≠ []) :
    joinPath sep (k :: rest) = k ++ sep ++ joinPath sep rest := by
  rcases rest with _ | ⟨k2, ks⟩
  · exact absurd rfl h
  · rw [joinPath]

/-- Distinct leaf paths stay distinct after joining (and prefixing with
any parent key): the separator-joined keys of a well-formed dict's leaves
contain no duplicates. -/
theorem joined_keys_nodup (c : Char) {d : JDict} (hwf : wfDict c d = true)
    (p : String) :
    ((flatPairs d).map (fun q =>
      new_key p (String.singleton c) (joinPath (String.singleton c) q.1))).Nodup := by
  have hgood := flatPairs_comp_good c d hwf
  have hrw : (flatPairs d).map (fun q =>
      new_key p (String.singleton c) (joinPath (String.singleton c) q.1))
      = ((flatPairs d).map Prod.fst).map (fun pa =>
          new_key p (String.singleton c) (joinPath (String.singleton c) pa)) := by
    rw [List.map_map]
    rfl
  rw [hrw]
  apply List.Nodup.map_on ?inj (flatPairs_paths_nodup c d hwf)
  case inj =>
    intro pa hpa pb hpb heq
    rcases List.mem_map.mp hpa with ⟨qa, hqa, rfl⟩
    rcases List.mem_map.mp hpb with ⟨qb, hqb, rfl⟩
    have hja := new_key_inj heq
    rcases flatPairs_head d qa hqa with ⟨ha, ta, hqa1, _⟩
    rcases flatPairs_head d qb hqb with ⟨hb, tb, hqb1, _⟩
    rw [← splitKey_joinPath qa.1 (by rw [hqa1]; simp)
        (fun x hx => (hgood qa hqa x hx).2),
      ← splitKey_joinPath qb.1 (by rw [hqb1]; simp)
        (fun x hx => (hgood qb hqb x hx).2), hja]

/-- The items accumulated by `flatten` are exactly the leaf paths of the
input, each key being the parent-prefixed separator-joined path. -/
theorem flattenItems_eq (c : Char) : ∀ (d : JDict) (p : String),
    wfDict c d = true →
    flattenItems (String.singleton c) p d =
      (flatPairs d).map (fun q =>
        (new_key p (String.singleton c) (joinPath (String.singleton c) q.1),
          q.2)) := by
  intro d
  induction d using flatPairs.induct with
  | case1 =>
      intro p _
      rw [flattenItems_nil, flatPairs_nil, List.map_nil]
  | case2 k f rest ihf ihr =>
      intro p hwf
      rw [wfDict_cons_dict] at hwf
      simp only [Bool.and_eq_true, bne_iff_ne, ne_eq] at hwf
      obtain ⟨⟨⟨⟨hk, hkfree⟩, hknot⟩, hwff⟩, hwfr⟩ := hwf
      rw [flattenItems_cons_dict, flatPairs_cons_dict, List.map_append,
        ihf (new_key p (String.singleton c) k) hwff, ihr p hwfr,
        List.map_map]
      congr 1
      have hnodupkeys :
          (keys ((flatPairs f).map (fun q =>
            (new_key (new_key p (String.singleton c) k) (String.singleton c)
              (joinPath (String.singleton c) q.1), q.2)))).Nodup := by
        have hkeys : keys ((flatPairs f).map (fun q =>
            (new_key (new_key p (String.singleton c) k) (String.singleton c)
              (joinPath (String.singleton c) q.1), q.2)))
            = (flatPairs f).map (fun q =>
                new_key (new_key p (String.singleton c) k) (String.singleton c)
                  (joinPath (String.singleton c) q.1)) := by
          rw [keys, List.map_map]
          rfl
        rw [hkeys]
        exact joined_keys_nodup c hwff (new_key p (String.singleton c) k)
      rw [dictOf_eq_self hnodupkeys]
      apply List.map_congr_left
      intro q hq
      rcases flatPairs_head f q hq with ⟨h1, t1, hq1, _⟩
      have hq1ne : q.1 ≠ [] := by rw [hq1]; simp
      have hjoin : joinPath (String.singleton c) (k :: q.1)
          = k ++ String.singleton c ++ joinPath (String.singleton c) q.1 :=
        joinPath_cons (String.singleton c) k hq1ne
      have hkey : new_key (new_key p (String.singleton c) k) (String.singleton c)
          (joinPath (String.singleton c) q.1)
          = new_key p (String.singleton c)
              (joinPath (String.singleton c) (k :: q.1)) := by
        rw [hjoin]
        by_cases hp : p = ""
        · subst hp
          simp [new_key, hk]
        · have hpkne : p ++ String.singleton c ++ k ≠ "" := by
            apply string_ne_empty_of_data
            simp only [String.data_append]
            intro hcontra
            rcases List.append_eq_nil.mp hcontra with ⟨h1a, _⟩
            rcases List.append_eq_nil.mp h1a with ⟨h2a, _⟩
            exact hp (String.ext h2a)
          simp only [new_key, if_neg hp, if_neg hpkne]
          apply String.ext
          simp [String.data_append, List.append_assoc]
      rw [hkey]
      rfl
  | case3 k v rest hnd ihr =>
      intro p hwf
      have hv := isVDict_false_of_forall hnd
      rw [wfDict_cons_leaf c k rest hv] at hwf
      simp only [Bool.and_eq_true, bne_iff_ne, ne_eq] at hwf
      rw [flattenItems_cons_leaf _ _ rest hv, flatPairs_cons_leaf rest hv,
        List.map_cons, ihr p hwf.2]
      rfl

/-- `flatten` of a well-formed dict is the list of its leaves keyed by
their separator-joined paths. -/
theorem flatten_eq (c : Char) (d : JDict) (hwf : wfDict c d = true) :
    flatten d "" (String.singleton c) =
      (flatPairs d).map (fun q => (joinPath (String.singleton c) q.1, q.2)) := by
  rw [flatten, flattenItems_eq c d "" hwf]
  have hnodupkeys : (keys ((flatPairs d).map (fun q =>
      (new_key "" (String.singleton c) (joinPath (String.singleton c) q.1),
        q.2)))).Nodup := by
    have hkeys : keys ((flatPairs d).map (fun q =>
        (new_key "" (String.singleton c) (joinPath (String.singleton c) q.1),
          q.2)))
        = (flatPairs d).map (fun q =>
            new_key "" (String.singleton c) (joinPath (String.singleton c) q.1)) := by
      rw [keys, List.map_map]
      rfl
    rw [hkeys]
    exact joined_keys_nodup c hwf ""
  rw [dictOf_eq_self hnodupkeys]
  apply List.map_congr_left
  intro q _
  simp [new_key]

theorem flatten_keys_nodup (c : Char) (d : JDict) (hwf : wfDict c d = true) :
    (keys (flatten d "" (String.singleton c))).Nodup := by
  rw [flatten_eq c d hwf]
  have hkeys : keys ((flatPairs d).map (fun q =>
      (joinPath (String.singleton c) q.1, q.2)))
      = (flatPairs d).map (fun q =>
          new_key "" (String.singleton c) (joinPath (String.singleton c) q.1)) := by
    rw [keys, List.map_map]
    apply List.map_congr_left
    intro q _
    simp [new_key]
  rw [hkeys]
  exact joined_keys_nodup c hwf ""

theorem dictGet_of_mem_nodup {α : Type} :
    ∀ {m : List (String × α)}, (keys m).Nodup →
      ∀ {k : String} {v : α}, (k, v) ∈ m → dictGet m k = some v := by
  intro m
  induction m with
  | nil => intro _ k v hm; exact absurd hm (List.not_mem_nil _)
  | cons p rest ih =>
      intro hnd k v hm
      rw [keys_cons, List.nodup_cons] at hnd
      rcases List.mem_cons.mp hm with h | h
      · rw [← h]
        simp [dictGet]
      · have hbe : (p.1 == k) = false := by
          rw [Bool.eq_false_iff]
          intro hc
          apply hnd.1
          rw [beq_iff_eq.mp hc]
          exact List.mem_map_of_mem Prod.fst h
        have hrest := ih hnd.2 h
        unfold dictGet at hrest ⊢
        rw [List.find?_cons]
        simp only [hbe]
        exact hrest

/-! ### Re-nesting rebuilds the original dict -/

theorem insertPath_append {m : JDict} (n : JDict) {k : String}
    (ks : List String) (v : JVal) (h : k ∉ keys m) :
    insertPath (m ++ n) (k :: ks) v = m ++ insertPath n (k :: ks) v := by
  rcases ks with _ | ⟨k2, ks⟩
  · rw [insertPath, insertPath]
    exact dictUpdate_append_right n v h
  · rw [insertPath, insertPath, dictGet_append_right n h]
    rcases hg : dictGet n k with _ | val
    · simp only []
      exact dictUpdate_append_right n _ h
    · cases val
      all_goals simp only []
      all_goals exact dictUpdate_append_right n _ h

theorem foldIns_cons (m : JDict) (q : List String × JVal)
    (pairs : List (List String × JVal)) :
    foldIns m (q :: pairs) = foldIns (insertPath m q.1 q.2) pairs := rfl

theorem foldIns_append_left :
    ∀ (pairs : List (List String × JVal)) (m n : JDict),
      (∀ q ∈ pairs, ∃ h t, q.1 = h :: t ∧ h ∉ keys m) →
      foldIns (m ++ n) pairs = m ++ foldIns n pairs := by
  intro pairs
  induction pairs with
  | nil => intro m n _; rfl
  | cons q pairs ih =>
      intro m n hq
      rcases hq q (by simp) with ⟨h, t, hq1, hnot⟩
      rw [foldIns_cons, foldIns_cons, hq1,
        insertPath_append n t q.2 hnot,
        ih m (insertPath n (h :: t) q.2) (fun q2 hq2 => hq q2 (by simp [hq2]))]

theorem foldIns_under_key :
    ∀ (pairs : List (List String × JVal)) (m sub : JDict) (k : String),
      k ∉ keys m → (∀ q ∈ pairs, q.1 ≠ []) →
      foldIns (m ++ [(k, JVal.vdict sub)])
          (pairs.map (fun q => (k :: q.1, q.2)))
        = m ++ [(k, JVal.vdict (foldIns sub pairs))] := by
  intro pairs
  induction pairs with
  | nil => intro m sub k _ _; rfl
  | cons q pairs ih =>
      intro m sub k hk hne
      obtain ⟨q1, qv⟩ := q
      have hq1 : q1 ≠ [] := hne (q1, qv) (by simp)
      rcases q1 with _ | ⟨h, t⟩
      · exact absurd rfl hq1
      rw [List.map_cons, foldIns_cons]
      have hstep : insertPath (m ++ [(k, JVal.vdict sub)])
          (k :: h :: t) qv
          = m ++ [(k, JVal.vdict (insertPath sub (h :: t) qv))] := by
        rw [insertPath, dictGet_append_right [(k, JVal.vdict sub)] hk]
        have hgs : dictGet [(k, JVal.vdict sub)] k = some (JVal.vdict sub) := by
          simp [dictGet]
        rw [hgs]
        simp only []
        rw [dictUpdate_append_right [(k, JVal.vdict sub)] _ hk]
        have hupd : dictUpdate [(k, JVal.vdict sub)] k
            (JVal.vdict (insertPath sub (h :: t) qv))
            = [(k, JVal.vdict (insertPath sub (h :: t) qv))] := by
          unfold dictUpdate
          rw [if_pos (by rw [keys_contains_iff]; simp)]
          simp
        rw [hupd]
      rw [show ((fun q : List String × JVal =>
            ((k :: q.1 : List String), q.2)) ((h :: t, qv) : List String × JVal)).1
          = (k :: h :: t : List String) from rfl]
      rw [show ((fun q : List String × JVal =>
            ((k :: q.1 : List String), q.2)) ((h :: t, qv) : List String × JVal)).2
          = qv from rfl]
      rw [hstep, ih m (insertPath sub (h :: t) qv) k hk
        (fun q2 hq2b => hne q2 (by simp [hq2b])), foldIns_cons]

theorem foldIns_append_split (m : JDict) (a b : List (List String × JVal)) :
    foldIns m (a ++ b) = foldIns (foldIns m a) b := by
  unfold foldIns
  rw [List.foldl_append]

/-- Folding the leaf paths of a well-formed dict (no empty sub-mappings)
into the empty dict rebuilds the dict. -/
theorem foldIns_flatPairs (c : Char) : ∀ d : JDict,
    wfDict c d = true → noEmptyDicts d = true →
    foldIns [] (flatPairs d) = d := by
  intro d
  induction d using flatPairs.induct with
  | case1 => intro _ _; rw [flatPairs_nil]; rfl
  | case2 k f rest ihf ihr =>
      intro hwf hne
      rw [wfDict_cons_dict] at hwf
      simp only [Bool.and_eq_true, bne_iff_ne, ne_eq] at hwf
      obtain ⟨⟨⟨⟨hk, hkfree⟩, hknot⟩, hwff⟩, hwfr⟩ := hwf
      rw [noEmptyDicts_cons_dict] at hne
      simp only [Bool.and_eq_true] at hne
      obtain ⟨⟨hfne0, hnef⟩, hner⟩ := hne
      have hfne : f ≠ [] := by
        intro hc
        rw [hc] at hfne0
        simp [List.isEmpty] at hfne0
      have hpfne : flatPairs f ≠ [] := flatPairs_ne_nil f hnef hfne
      have hknotr : k ∉ keys rest := by
        intro hc
        simp only [Bool.not_eq_true'] at hknot
        rw [← keys_contains_iff rest k] at hc
        rw [hknot] at hc
        exact Bool.false_ne_true hc
      rw [flatPairs_cons_dict, foldIns_append_split]
      rcases hpf : flatPairs f with _ | ⟨q0, pf⟩
      · exact absurd hpf hpfne
      obtain ⟨q01, q0v⟩ := q0
      have hq0ne : q01 ≠ [] := by
        rcases flatPairs_head f (q01, q0v) (by rw [hpf]; simp) with ⟨h1, t1, he, _⟩
        rw [show ((q01, q0v) : List String × JVal).1 = q01 from rfl] at he
        rw [he]
        simp
      rcases q01 with _ | ⟨h0, t0⟩
      · exact absurd rfl hq0ne
      have hApart : foldIns []
          (((h0 :: t0, q0v) :: pf).map (fun q => ((k :: q.1 : List String), q.2)))
          = [(k, JVal.vdict (foldIns [] (flatPairs f)))] := by
        rw [List.map_cons, foldIns_cons]
        have hins : insertPath [] (k :: h0 :: t0) q0v
            = [(k, JVal.vdict (insertPath [] (h0 :: t0) q0v))] := by
          rw [insertPath]
          have : dictGet ([] : JDict) k = none := rfl
          rw [this]
          simp only []
          rfl
        rw [show ((fun q : List String × JVal =>
              ((k :: q.1 : List String), q.2)) ((h0 :: t0, q0v) : List String × JVal)).1
            = (k :: h0 :: t0 : List String) from rfl]
        rw [show ((fun q : List String × JVal =>
              ((k :: q.1 : List String), q.2)) ((h0 :: t0, q0v) : List String × JVal)).2
            = q0v from rfl]
        rw [hins,
          show ([(k, JVal.vdict (insertPath [] (h0 :: t0) q0v))] : JDict)
            = [] ++ [(k, JVal.vdict (insertPath [] (h0 :: t0) q0v))] from rfl,
          foldIns_under_key pf [] (insertPath [] (h0 :: t0) q0v) k (by simp)
            (fun q2 hq2 => by
              rcases flatPairs_head f q2 (by rw [hpf]; simp [hq2]) with
                ⟨h2, t2, he2, _⟩
              rw [he2]
              simp),
          List.nil_append, hpf, foldIns_cons]
      rw [hApart, ihf hwff hnef]
      have hBpart : foldIns [(k, JVal.vdict f)] (flatPairs rest)
          = [(k, JVal.vdict f)] ++ foldIns [] (flatPairs rest) := by
        rw [show ([(k, JVal.vdict f)] : JDict)
            = [(k, JVal.vdict f)] ++ [] from (List.append_nil _).symm]
        rw [foldIns_append_left (flatPairs rest) [(k, JVal.vdict f)] []]
        · rw [List.append_nil]
        · intro q2 hq2
          rcases flatPairs_head rest q2 hq2 with ⟨h2, t2, he2, hk2⟩
          refine ⟨h2, t2, he2, ?_⟩
          intro hc
          simp only [keys_cons, keys_nil, List.mem_singleton] at hc
          exact hknotr (hc ▸ hk2)
      rw [hBpart, ihr hwfr hner]
      rfl
  | case3 k v rest hnd ihr =>
      intro hwf hne
      have hv := isVDict_false_of_forall hnd
      rw [wfDict_cons_leaf c k rest hv] at hwf
      simp only [Bool.and_eq_true, bne_iff_ne, ne_eq] at hwf
      obtain ⟨⟨⟨hk, hkfree⟩, hknot⟩, hwfr⟩ := hwf
      rw [noEmptyDicts_cons_leaf k rest hv] at hne
      have hknotr : k ∉ keys rest := by
        intro hc
        simp only [Bool.not_eq_true'] at hknot
        rw [← keys_contains_iff rest k] at hc
        rw [hknot] at hc
        exact Bool.false_ne_true hc
      rw [flatPairs_cons_leaf rest hv, foldIns_cons]
      have hins : insertPath [] (([k], v) : List String × JVal).1
          (([k], v) : List String × JVal).2 = [(k, v)] := rfl
      rw [hins]
      have hBpart : foldIns [(k, v)] (flatPairs rest)
          = [(k, v)] ++ foldIns [] (flatPairs rest) := by
        rw [show ([(k, v)] : JDict) = [(k, v)] ++ [] from (List.append_nil _).symm]
        rw [foldIns_append_left (flatPairs rest) [(k, v)] []]
        · rw [List.append_nil]
        · intro q2 hq2
          rcases flatPairs_head rest q2 hq2 with ⟨h2, t2, he2, hk2⟩
          refine ⟨h2, t2, he2, ?_⟩
          intro hc
          simp only [keys_cons, keys_nil, List.mem_singleton] at hc
          exact hknotr (hc ▸ hk2)
      rw [hBpart, ihr hwfr hne]
      rfl

theorem foldl_split_join (c : Char) :
    ∀ (pairs : List (List String × JVal)) (m : JDict),
      (∀ q ∈ pairs, splitKey c (joinPath (String.singleton c) q.1) = q.1) →
      List.foldl (fun acc p => insertPath acc (splitKey c p.1) p.2) m
        (pairs.map (fun q => (joinPath (String.singleton c) q.1, q.2)))
        = foldIns m pairs := by
  intro pairs
  induction pairs with
  | nil => intro m _; rfl
  | cons q pairs ih =>
      intro m hsp
      rw [List.map_cons, List.foldl_cons, foldIns_cons]
      have hstep : insertPath m
          (splitKey c ((joinPath (String.singleton c) q.1, q.2) :
            String × JVal).1) ((joinPath (String.singleton c) q.1, q.2) :
            String × JVal).2
          = insertPath m q.1 q.2 := by
        rw [show ((joinPath (String.singleton c) q.1, q.2) :
            String × JVal).1 = joinPath (String.singleton c) q.1 from rfl,
          hsp q (by simp)]
      rw [hstep]
      exact ih (insertPath m q.1 q.2) (fun q2 hq2 => hsp q2 (by simp [hq2]))

/-- Round trip: flattening a well-formed nested dict (keys nonempty,
separator-free, distinct per level; no empty sub-mappings) and re-nesting
by splitting each key on the separator reconstructs the dict. -/
theorem flatten_unflatten (c : Char) (d : JDict)
    (hwf : wfDict c d = true) (hne : noEmptyDicts d = true) :
    unflatten c (flatten d "" (String.singleton c)) = d := by
  rw [flatten_eq c d hwf, unflatten,
    foldl_split_join c (flatPairs d) []
      (fun q hq => splitKey_joinPath q.1
        (by rcases flatPairs_head d q hq with ⟨h1, t1, he, _⟩; rw [he]; simp)
        (fun x hx => (flatPairs_comp_good c d hwf q hq x hx).2))]
  exact foldIns_flatPairs c d hwf hne

/-! ### Flat inputs and leaf lookups -/

theorem flattenItems_flat (sep : String) : ∀ d : JDict,
    (∀ p ∈ d, isVDict p.2 = false) → flattenItems sep "" d = d := by
  intro d
  induction d with
  | nil => exact fun _ => flattenItems_nil sep ""
  | cons p rest ih =>
      intro hflat
      obtain ⟨k, v⟩ := p
      have hv : isVDict v = false := hflat (k, v) (by simp)
      rw [flattenItems_cons_leaf sep "" rest hv,
        ih (fun p hp => hflat p (by simp [hp]))]
      rw [show new_key "" sep k = k from rfl]

/-- Flattening an already-flat dict returns it unchanged. -/
theorem flatten_flat (sep : String) (d : JDict)
    (hflat : ∀ p ∈ d, isVDict p.2 = false) (hnd : (keys d).Nodup) :
    flatten d "" sep = d := by
  rw [flatten, flattenItems_flat sep d hflat, dictOf_eq_self hnd]

/-- Every leaf of a well-formed dict is bound, under its separator-joined
path, to its own value in the flattened dict. -/
theorem flatten_leaf_lookup (c : Char) (d : JDict) (hwf : wfDict c d = true)
    {pa : List String} {v : JVal} (hq : (pa, v) ∈ flatPairs d) :
    dictGet (flatten d "" (String.singleton c))
      (joinPath (String.singleton c) pa) = some v := by
  have hnodup := flatten_keys_nodup c d hwf
  rw [flatten_eq c d hwf] at hnodup ⊢
  exact dictGet_of_mem_nodup hnodup
    (List.mem_map.mpr ⟨(pa, v), hq, rfl⟩)

theorem zip_self_map {α β : Type} (f : α → β) :
    ∀ l : List α, l.zip (l.map f) = l.map (fun a => (a, f a)) := by
  intro l
  induction l with
  | nil => rfl
  | cons a l ih => rw [List.map_cons, List.zip_cons_cons, ih, List.map_cons]

theorem merge_dicts_singletons {α : Type} (l : List (String × α)) :
    merge_dicts (l.map (fun p => [p])) = dictOf l := by
  unfold merge_dicts dictOf
  rw [List.foldl_map]
  rfl

theorem map_fst_pair {α β : Type} (g : α → β) :
    ∀ l : List α, (l.map (fun a => (a, g a))).map Prod.fst = l := by
  intro l
  induction l with
  | nil => rfl
  | cons a t ih => simp [ih]

theorem foldl_max_le (x : Nat) : ∀ xs : List Nat,
    (∀ z ∈ xs, z ≤ x) → xs.foldl max x = x := by
  intro xs
  induction xs with
  | nil => intro _; rfl
  | cons z t ih =>
      intro h
      rw [List.foldl_cons, Nat.max_eq_left (h z (by simp))]
      exact ih (fun z2 hz2 => h z2 (by simp [hz2]))

theorem length_le_one_eq {α : Type} : ∀ {l : List α}, l.length ≤ 1 →
    ∀ x ∈ l, ∀ y ∈ l, x = y := by
  intro l
  rcases l with _ | ⟨a, _ | ⟨b, t⟩⟩
  · simp
  · intro _ x hx y hy
    rw [List.mem_singleton.mp hx, List.mem_singleton.mp hy]
  · intro h
    simp at h

theorem all_eq_spec {l : List Nat} (h : all_eq l = true) :
    ∀ x ∈ l, ∀ y ∈ l, x = y := by
  intro x hx y hy
  unfold all_eq at h
  have := length_le_one_eq (by exact Nat.le_of_lt_succ (Nat.lt_succ_of_le (by simpa using h)))
  exact this x (List.mem_dedup.mpr hx) y (List.mem_dedup.mpr hy)

theorem pyListMax_all_eq {l : List Nat} (h : all_eq l = true) {x : Nat}
    (hx : x ∈ l) : pyListMax l = x := by
  rcases l with _ | ⟨a, t⟩
  · exact absurd hx (List.not_mem_nil x)
  · rw [pyListMax, foldl_max_le a t
      (fun z hz => le_of_eq (all_eq_spec h z (by simp [hz]) a (by simp)))]
    exact all_eq_spec h a (by simp) x hx

theorem pad_columns_eq (data : List (String × List Rat)) :
    pad_columns data = data.map (fun p =>
      (p.1, List.replicate
        (pyListMax (data.map (fun q => q.2.length)) - p.2.length) (0 : Rat)
        ++ p.2)) := by
  unfold pad_columns
  by_cases h : all_eq (data.map (fun p => p.2.length)) = true
  · rw [if_pos h]
    conv_lhs => rw [← List.map_id data]
    apply List.map_congr_left
    intro p hp
    have hmax : pyListMax (data.map (fun q => q.2.length)) = p.2.length :=
      pyListMax_all_eq h (List.mem_map.mpr ⟨p, hp, rfl⟩)
    rw [id, hmax, Nat.sub_self, List.replicate_zero, List.nil_append]
  · rw [if_neg h]

theorem alignPriceData_ok (fetch : String → List (Int × Rat)) (a0 : String)
    (rest : List String) (hnd : (a0 :: rest).Nodup)
    (hne : ∀ a ∈ a0 :: rest, fetch a ≠ [])
    (hmax : ∀ a ∈ a0 :: rest, (fetch a).length ≤ (fetch a0).length) :
    alignPriceData (a0 :: rest) ((a0 :: rest).map fetch) =
      Except.ok ⟨(fetch a0).map (fun p => pyDateStr (Int.tdiv p.1 1000)),
        (a0 :: rest).map (fun a =>
          (a, List.replicate ((fetch a0).length - (fetch a).length) (0 : Rat)
            ++ (fetch a).map Prod.snd))⟩ := by
  simp only [alignPriceData, List.map_cons]
  have hany : ((fetch a0 :: List.map fetch rest).any List.isEmpty) = false := by
    rw [List.any_eq_false]
    intro x hx
    rcases List.mem_cons.mp hx with h | h
    · rw [h]
      simp [List.isEmpty_iff]
      exact hne a0 (by simp)
    · rcases List.mem_map.mp h with ⟨a, ha, rfl⟩
      simp [List.isEmpty_iff]
      exact hne a (by simp [ha])
  rw [hany]
  rw [if_neg Bool.false_ne_true]
  have hzip : (a0 :: rest).zip (fetch a0 :: List.map fetch rest)
      = (a0 :: rest).map (fun a => (a, fetch a)) := zip_self_map fetch (a0 :: rest)
  rw [hzip, List.map_map]
  have hcomp : ((fun p : String × List (Int × Rat) => [(p.1, List.map Prod.snd p.2)]) ∘
      (fun a => (a, fetch a)))
      = (fun p => [p]) ∘ (fun a : String => (a, (fetch a).map Prod.snd)) := rfl
  rw [hcomp, ← List.map_map, merge_dicts_singletons]
  have hkeys : keys ((a0 :: rest).map (fun a : String => (a, (fetch a).map Prod.snd)))
      = a0 :: rest := by
    rw [keys]
    exact map_fst_pair _ _
  rw [dictOf_eq_self (by rw [hkeys]; exact hnd)]
  have hlens : (((a0 :: rest).map (fun a : String => (a, (fetch a).map Prod.snd))).map
      (fun q => q.2.length)) = (a0 :: rest).map (fun a => (fetch a).length) := by
    rw [List.map_map]
    apply List.map_congr_left
    intro a _
    simp
  have hM : pyListMax (((a0 :: rest).map
      (fun a : String => (a, (fetch a).map Prod.snd))).map (fun q => q.2.length))
      = (fetch a0).length := by
    rw [hlens, List.map_cons, pyListMax]
    apply foldl_max_le
    intro z hz
    rcases List.mem_map.mp hz with ⟨a, ha, rfl⟩
    exact hmax a (by simp [ha])
  have hpad : pad_columns ((a0 :: rest).map
      (fun a : String => (a, (fetch a).map Prod.snd)))
      = (a0 :: rest).map (fun a =>
          (a, List.replicate ((fetch a0).length - (fetch a).length) (0 : Rat)
            ++ (fetch a).map Prod.snd)) := by
    rw [pad_columns_eq, hM, List.map_map]
    apply List.map_congr_left
    intro a _
    simp
  rw [hpad]
  have hall : (((a0 :: rest).map (fun a =>
      (a, List.replicate ((fetch a0).length - (fetch a).length) (0 : Rat)
        ++ (fetch a).map Prod.snd))).all
      (fun p => p.2.length
        == (List.map (fun p => pyDateStr (Int.tdiv p.1 1000)) (fetch a0)).length))
      = true := by
    rw [List.all_eq_true]
    intro p hp
    rcases List.mem_map.mp hp with ⟨a, ha, rfl⟩
    simp only [List.length_append, List.length_replicate, List.length_map]
    rw [Nat.sub_add_cancel (hmax a ha)]
    simp
  rw [hall, if_pos rfl]
  rfl

theorem valid_date_ne_empty {s : String} (h : valid_date s = true) :
    ¬ (s = "") := by
  intro hs
  rw [hs] at h
  exact absurd h (by decide)

theorem mapFetch_ok {fetch : String → List (Int × Rat)} (ds de : String)
    {s e : String} (hs : valid_date s = true) (he : valid_date e = true) :
    ∀ assets : List String,
      mapFetch fetch ds de s e assets
        = (Except.ok (assets.map fetch), assets) := by
  intro assets
  induction assets with
  | nil => rfl
  | cons a rest ih =>
      rw [mapFetch]
      simp only [get_asset_price_history, if_neg (valid_date_ne_empty hs),
        if_neg (valid_date_ne_empty he), hs, he, Bool.true_eq_false, if_false]
      rw [ih]
      rfl

theorem get_assets_pd_ok (fetch : String → List (Int × Rat)) (ds de : String)
    {s e : String} (hs : valid_date s = true) (he : valid_date e = true)
    (assets : List String) :
    get_assets_price_history_pd fetch ds de assets s e
      = (alignPriceData assets (assets.map fetch), assets) := by
  unfold get_assets_price_history_pd
  rw [mapFetch_ok ds de hs he assets]

theorem flatPairs_not_dict : ∀ d : JDict, ∀ q ∈ flatPairs d,
    isVDict q.2 = false := by
  intro d
  induction d using flatPairs.induct with
  | case1 => simp [flatPairs_nil]
  | case2 k f rest ihf ihr =>
      intro q hq
      rw [flatPairs_cons_dict] at hq
      rcases List.mem_append.mp hq with h | h
      · rcases List.mem_map.mp h with ⟨q2, hq2, rfl⟩
        exact ihf q2 hq2
      · exact ihr q h
  | case3 k v rest hnd ihr =>
      intro q hq
      have hv := isVDict_false_of_forall hnd
      rw [flatPairs_cons_leaf rest hv] at hq
      rcases List.mem_cons.mp hq with h | h
      · rw [h]
        exact hv
      · exact ihr q h

/-! ## Claim theorems -/

/-- C3: calling `get_assets_price_history_pd` with an empty asset list
fails with the `EmptyInputError` kind (the `IndexError` from
`asset_data[0]`), and the list of GET requests issued is empty — the
failure precedes any network call. -/
theorem C3_empty_asset_list (fetch : String → List (Int × Rat))
    (ds de s e : String) :
    get_assets_price_history_pd fetch ds de [] s e
      = (Except.error PyErr.emptyInputError, []) := rfl

theorem C3_witness :
    get_assets_price_history_pd exFetchAB "dx" "dy" [] "x" "y"
      = (Except.error PyErr.emptyInputError, []) :=
  C3_empty_asset_list exFetchAB "dx" "dy" "x" "y"

/-- C5 (counterexample): the empty string is a caller-suppliable date
string that fails `YYYY-MM-DD` parsing, yet the source treats it as falsy
(`if not start_date:`, line 177) and silently substitutes the default
start date (one year before today): no error of any kind is raised and
the GET request IS issued. -/
theorem C5_counterexample :
    valid_date "" = false ∧
    get_asset_price_history exFetchAB "2020-10-12" "2021-10-12" "bitcoin"
        "" "2021-02-01"
      = (Except.ok (exFetchAB "bitcoin"), ["bitcoin"]) :=
  ⟨by decide, by decide⟩

/-- C5 (amended): whenever a caller-supplied start or end date string is
nonempty (truthy in Python) and fails `YYYY-MM-DD` parsing,
`get_asset_price_history` fails with the `InvalidDateError` kind at
input-validation time and no HTTP request is issued; an empty (falsy)
date string is instead replaced by a current-date default before
validation.  The `asciiStr` hypotheses confine the statement to the
fragment where the embedded `valid_date` agrees with CPython `strptime`
in the failure direction (CPython additionally accepts non-ASCII Unicode
decimal digits in some positions, which the model rejects). -/
theorem C5_invalid_date (fetch : String → List (Int × Rat))
    (default_start_date default_end_date asset_key start_date end_date :
      String)
    (h : (valid_date start_date = false ∧ start_date ≠ "" ∧
            asciiStr start_date = true) ∨
         (valid_date end_date = false ∧ end_date ≠ "" ∧
            asciiStr end_date = true)) :
    get_asset_price_history fetch default_start_date default_end_date
        asset_key start_date end_date
      = (Except.error PyErr.invalidDateError, []) := by
  simp only [get_asset_price_history]
  rcases h with ⟨hsf, hsne, _⟩ | ⟨hef, hene, _⟩
  · rw [if_neg hsne, if_pos hsf]
  · rw [if_neg hene]
    by_cases hs0 : start_date = ""
    · rw [if_pos hs0]
      by_cases hdsf : valid_date default_start_date = false
      · rw [if_pos hdsf]
      · rw [if_neg hdsf, if_pos hef]
    · rw [if_neg hs0]
      by_cases hsf : valid_date start_date = false
      · rw [if_pos hsf]
      · rw [if_neg hsf, if_pos hef]

theorem C5_witness :
    ((valid_date "2021-13-40" = false ∧ ("2021-13-40" : String) ≠ "" ∧
        asciiStr "2021-13-40" = true) ∨
     (valid_date "2021-02-01" = false ∧ ("2021-02-01" : String) ≠ "" ∧
        asciiStr "2021-02-01" = true)) ∧
    get_asset_price_history exFetchAB "2020-10-12" "2021-10-12" "bitcoin"
        "2021-13-40" "2021-02-01"
      = (Except.error PyErr.invalidDateError, []) :=
  ⟨Or.inl ⟨by decide, by decide, by decide⟩,
    C5_invalid_date exFetchAB "2020-10-12" "2021-10-12" "bitcoin"
      "2021-13-40" "2021-02-01" (Or.inl ⟨by decide, by decide, by decide⟩)⟩

/-- C4: the padding step always left-pads each column with zeros up to the
maximum column length and never appends (the padded column is exactly
`zeros ++ original`); and, concretely, for assets `["A", "B"]` with
A = [(0,10),(86400000,20)] and B = [(86400000,5)], the table has the two
dates derived from A's timestamps, column A = [10, 20], and column
B = [0, 5]. -/
theorem C4_padding_prepended :
    (∀ data : List (String × List Rat),
      pad_columns data = data.map (fun p =>
        (p.1, List.replicate
          (pyListMax (data.map (fun q => q.2.length)) - p.2.length) (0 : Rat)
          ++ p.2))) ∧
    (get_assets_price_history_pd exFetchAB "2020-01-01" "2021-01-01"
        ["A", "B"] "2021-01-01" "2021-02-01").1
      = Except.ok ⟨["1970-01-01", "1970-01-02"],
          [("A", [10, 20]), ("B", [0, 5])]⟩ :=
  ⟨pad_columns_eq, by decide⟩

/-- C1 (counterexample): when the first asset's series is shorter than the
maximum (A has 1 point, B has 2), no Aligned Table is produced at all —
`pd.DataFrame` fails with `ValueError` because the padded columns are
longer than the date index derived from the first asset. -/
theorem C1_counterexample :
    (get_assets_price_history_pd exFetchBA "2020-01-01" "2021-01-01"
        ["A", "B"] "2021-01-01" "2021-02-01").1
      = Except.error PyErr.valueError := by decide

/-- C1 (amended): for distinct assets whose series all have length ≥ 1,
provided the FIRST asset's series has the maximal length, the Aligned
Table exists, its row count is the maximum input series length, and every
column's length equals the row count. -/
theorem C1_row_count (fetch : String → List (Int × Rat))
    (ds de : String) (a0 : String) (rest : List String) (s e : String)
    (hs : valid_date s = true) (he : valid_date e = true)
    (hnd : (a0 :: rest).Nodup)
    (hlen : ∀ a ∈ a0 :: rest, 1 ≤ (fetch a).length)
    (hmax : ∀ a ∈ a0 :: rest, (fetch a).length ≤ (fetch a0).length) :
    ∃ t : DataFrame,
      (get_assets_price_history_pd fetch ds de (a0 :: rest) s e).1
        = Except.ok t ∧
      t.index.length
        = pyListMax ((a0 :: rest).map (fun a => (fetch a).length)) ∧
      ∀ p ∈ t.cols, p.2.length = t.index.length := by
  have hne : ∀ a ∈ a0 :: rest, fetch a ≠ [] := by
    intro a ha h0
    have := hlen a ha
    rw [h0] at this
    simp at this
  rw [get_assets_pd_ok fetch ds de hs he,
    alignPriceData_ok fetch a0 rest hnd hne hmax]
  refine ⟨_, rfl, ?_, ?_⟩
  · simp only [List.length_map]
    rw [List.map_cons, pyListMax,
      foldl_max_le (fetch a0).length _ (fun z hz => by
        rcases List.mem_map.mp hz with ⟨a, ha, rfl⟩
        exact hmax a (by simp [ha]))]
  · intro p hp
    rcases List.mem_map.mp hp with ⟨a, ha, rfl⟩
    simp only [List.length_append, List.length_replicate, List.length_map]
    rw [Nat.sub_add_cancel (hmax a ha)]

theorem C1_witness :
    valid_date "2021-01-01" = true ∧ valid_date "2021-02-01" = true ∧
    (("A" :: ["B"]) : List String).Nodup ∧
    (∀ a ∈ ("A" :: ["B"] : List String), 1 ≤ (exFetchAB a).length) ∧
    (∀ a ∈ ("A" :: ["B"] : List String),
      (exFetchAB a).length ≤ (exFetchAB "A").length) ∧
    ∃ t : DataFrame,
      (get_assets_price_history_pd exFetchAB "2020-01-01" "2021-01-01"
        ("A" :: ["B"]) "2021-01-01" "2021-02-01").1 = Except.ok t ∧
      t.index.length
        = pyListMax (("A" :: ["B"] : List String).map
            (fun a => (exFetchAB a).length)) ∧
      ∀ p ∈ t.cols, p.2.length = t.index.length :=
  ⟨by decide, by decide, by decide, by decide, by decide,
    C1_row_count exFetchAB "2020-01-01" "2021-01-01" "A" ["B"]
      "2021-01-01" "2021-02-01"
      (by decide) (by decide) (by decide) (by decide) (by decide)⟩

/-- C8 (counterexample): a collection of per-asset series that are all of
equal length 0 makes the operation fail (`IndexError` slicing a column out
of an empty array) instead of returning the inputs unchanged. -/
theorem C8_counterexample :
    (get_assets_price_history_pd exFetchEmpty "2020-01-01" "2021-01-01"
        ["A"] "2021-01-01" "2021-02-01").1
      = Except.error PyErr.indexError := by decide

/-- C8 (amended): for a nonempty collection of distinct assets whose
series all have the same nonzero length, the Aligner performs no padding:
every output column is exactly the input value column, at identical
positions, and the index is the date axis of the first asset. -/
theorem C8_equal_lengths_identity (fetch : String → List (Int × Rat))
    (ds de : String) (a0 : String) (rest : List String) (s e : String)
    (n : Nat)
    (hs : valid_date s = true) (he : valid_date e = true)
    (hnd : (a0 :: rest).Nodup) (hn : 1 ≤ n)
    (hlen : ∀ a ∈ a0 :: rest, (fetch a).length = n) :
    (get_assets_price_history_pd fetch ds de (a0 :: rest) s e).1
      = Except.ok ⟨(fetch a0).map (fun p => pyDateStr (Int.tdiv p.1 1000)),
          (a0 :: rest).map (fun a => (a, (fetch a).map Prod.snd))⟩ := by
  have hmax : ∀ a ∈ a0 :: rest, (fetch a).length ≤ (fetch a0).length := by
    intro a ha
    rw [hlen a ha, hlen a0 (by simp)]
  have hne : ∀ a ∈ a0 :: rest, fetch a ≠ [] := by
    intro a ha h0
    have hx := hlen a ha
    rw [h0] at hx
    rw [← hx] at hn
    simp at hn
  rw [get_assets_pd_ok fetch ds de hs he,
    alignPriceData_ok fetch a0 rest hnd hne hmax]
  have hcols : (a0 :: rest).map (fun a =>
      (a, List.replicate ((fetch a0).length - (fetch a).length) (0 : Rat)
        ++ (fetch a).map Prod.snd))
      = (a0 :: rest).map (fun a => (a, (fetch a).map Prod.snd)) := by
    apply List.map_congr_left
    intro a ha
    rw [hlen a ha, hlen a0 (by simp), Nat.sub_self, List.replicate_zero,
      List.nil_append]
  rw [hcols]

theorem C8_witness :
    valid_date "2021-01-01" = true ∧ valid_date "2021-02-01" = true ∧
    (("A" :: ["B"]) : List String).Nodup ∧ 1 ≤ 2 ∧
    (∀ a ∈ ("A" :: ["B"] : List String), (exFetchEq a).length = 2) ∧
    (get_assets_price_history_pd exFetchEq "2020-01-01" "2021-01-01"
        ("A" :: ["B"]) "2021-01-01" "2021-02-01").1
      = Except.ok ⟨(exFetchEq "A").map (fun p => pyDateStr (Int.tdiv p.1 1000)),
          (("A" :: ["B"] : List String)).map
            (fun a => (a, (exFetchEq a).map Prod.snd))⟩ :=
  ⟨by decide, by decide, by decide, by decide, by decide,
    C8_equal_lengths_identity exFetchEq "2020-01-01" "2021-01-01" "A" ["B"]
      "2021-01-01" "2021-02-01" 2
      (by decide) (by decide) (by decide) (by decide) (by decide)⟩

/-- C2 (counterexample): the mapping `{"a": {}}` is acyclic and no key
contains the separator, yet flattening erases the empty sub-mapping, so
re-nesting yields `{}`, not the original mapping. -/
theorem C2_counterexample :
    unflatten '_' (flatten [("a", JVal.vdict [])] "" (String.singleton '_'))
      ≠ [("a", JVal.vdict [])] := by
  intro h
  rw [show unflatten '_'
      (flatten [("a", JVal.vdict [])] "" (String.singleton '_')) = [] from by
    simp [flatten, flattenItems, dictOf, unflatten]] at h
  exact List.noConfusion h

/-- C2 (amended): for every acyclic nested mapping whose keys are nonempty,
contain no separator character, and are distinct per level, and in which no
value is an empty mapping, flattening and then re-nesting by splitting each
flattened key on the separator reconstructs the mapping exactly. -/
theorem C2_roundtrip (c : Char) (d : JDict)
    (hwf : wfDict c d = true) (hne : noEmptyDicts d = true) :
    unflatten c (flatten d "" (String.singleton c)) = d :=
  flatten_unflatten c d hwf hne

theorem C2_witness :
    wfDict '_' [("a", JVal.vdict [("b", JVal.vint 1)]), ("c", JVal.vint 2)]
      = true ∧
    noEmptyDicts [("a", JVal.vdict [("b", JVal.vint 1)]), ("c", JVal.vint 2)]
      = true ∧
    unflatten '_' (flatten
        [("a", JVal.vdict [("b", JVal.vint 1)]), ("c", JVal.vint 2)]
        "" (String.singleton '_'))
      = [("a", JVal.vdict [("b", JVal.vint 1)]), ("c", JVal.vint 2)] :=
  ⟨by simp [wfDict_cons_dict, wfDict_cons_leaf, wfDict_nil, isVDict,
      sepFree, keys],
   by simp [noEmptyDicts_cons_dict, noEmptyDicts_cons_leaf, noEmptyDicts_nil,
      isVDict],
   C2_roundtrip '_' [("a", JVal.vdict [("b", JVal.vint 1)]), ("c", JVal.vint 2)]
     (by simp [wfDict_cons_dict, wfDict_cons_leaf, wfDict_nil, isVDict,
        sepFree, keys])
     (by simp [noEmptyDicts_cons_dict, noEmptyDicts_cons_leaf,
        noEmptyDicts_nil, isVDict])⟩

/-- C9: flattening an already-flat mapping (no value is itself a mapping;
keys distinct, as in any Python dict) returns it unchanged, for every
separator. -/
theorem C9_idempotent_on_flat (sep : String) (d : JDict)
    (hflat : ∀ p ∈ d, isVDict p.2 = false) (hnd : (keys d).Nodup) :
    flatten d "" sep = d :=
  flatten_flat sep d hflat hnd

theorem C9_witness :
    (∀ p ∈ ([("x", JVal.vint 1), ("y", JVal.vnull)] : JDict),
      isVDict p.2 = false) ∧
    (keys ([("x", JVal.vint 1), ("y", JVal.vnull)] : JDict)).Nodup ∧
    flatten [("x", JVal.vint 1), ("y", JVal.vnull)] "" "_"
      = [("x", JVal.vint 1), ("y", JVal.vnull)] :=
  ⟨by intro p hp
      rcases List.mem_cons.mp hp with h | h
      · rw [h]; rfl
      · rw [List.mem_singleton.mp h]; rfl,
   by decide,
   C9_idempotent_on_flat "_" [("x", JVal.vint 1), ("y", JVal.vnull)]
     (by intro p hp
         rcases List.mem_cons.mp hp with h | h
         · rw [h]; rfl
         · rw [List.mem_singleton.mp h]; rfl)
     (by decide)⟩

/-- C7 (counterexample): in the mapping
`{"a_b": 1, "a": {"b": 2}}` (a legitimate Python dict — its top-level keys
are distinct) the non-mapping value `1` has separator-joined key path
`"a_b"`, but the flattened output binds `"a_b"` to `2`: the nested leaf's
identical joined path overwrites it in `dict(items)`. -/
theorem C7_counterexample :
    dictGet (flatten [("a_b", JVal.vint 1),
        ("a", JVal.vdict [("b", JVal.vint 2)])] "" "_") "a_b"
      ≠ some (JVal.vint 1) ∧
    ("a_b", JVal.vint 1) ∉ flatten [("a_b", JVal.vint 1),
        ("a", JVal.vdict [("b", JVal.vint 2)])] "" "_" := by
  have heval : flatten [("a_b", JVal.vint 1),
      ("a", JVal.vdict [("b", JVal.vint 2)])] "" "_"
      = [("a_b", JVal.vint 2)] := by
    simp [flatten, flattenItems, dictOf, dictUpdate, keys, new_key]
  rw [heval]
  constructor
  · intro h
    simp [dictGet] at h
  · intro h
    simp at h

/-- C7 (amended): in a well-formed mapping (nonempty, separator-free,
per-level-distinct keys), every leaf — every value that is not a mapping,
empty containers included — appears in the flattened output bound to its
separator-joined key path. -/
theorem C7_leaves_bound (c : Char) (d : JDict) (hwf : wfDict c d = true) :
    ∀ q ∈ flatPairs d, isVDict q.2 = false ∧
      dictGet (flatten d "" (String.singleton c))
        (joinPath (String.singleton c) q.1) = some q.2 := by
  intro q hq
  refine ⟨flatPairs_not_dict d q hq, ?_⟩
  exact flatten_leaf_lookup c d hwf (by rw [show ((q.1, q.2) : List String × JVal) = q from rfl]; exact hq)

theorem C7_witness :
    wfDict '_' [("a", JVal.vdict [("b", JVal.vint 2)]), ("e", JVal.vlist [])]
      = true ∧
    ((["a", "b"], JVal.vint 2) : List String × JVal)
      ∈ flatPairs [("a", JVal.vdict [("b", JVal.vint 2)]), ("e", JVal.vlist [])] ∧
    isVDict (JVal.vint 2) = false ∧
    dictGet (flatten [("a", JVal.vdict [("b", JVal.vint 2)]),
        ("e", JVal.vlist [])] "" (String.singleton '_'))
      (joinPath (String.singleton '_') ["a", "b"]) = some (JVal.vint 2) := by
  have hwf : wfDict '_' [("a", JVal.vdict [("b", JVal.vint 2)]),
      ("e", JVal.vlist [])] = true := by
    simp [wfDict_cons_dict, wfDict_cons_leaf, wfDict_nil, isVDict, sepFree,
      keys]
  have hmem : ((["a", "b"], JVal.vint 2) : List String × JVal)
      ∈ flatPairs [("a", JVal.vdict [("b", JVal.vint 2)]),
          ("e", JVal.vlist [])] := by
    rw [flatPairs_cons_dict, flatPairs_cons_leaf _ (by rfl),
      flatPairs_cons_leaf _ (by rfl), flatPairs_nil]
    simp
  have hcc := C7_leaves_bound '_'
    [("a", JVal.vdict [("b", JVal.vint 2)]), ("e", JVal.vlist [])] hwf
    (["a", "b"], JVal.vint 2) hmem
  exact ⟨hwf, hmem, hcc.1, hcc.2⟩

/-- C6: with the numeric post-filter enabled, the flattened metrics row
keeps exactly the flattened entries whose value is non-null and an
`int`/`float` instance; concretely,
`{"market_data": {"price_usd": 50000, "volume": null}}` flattened with
separator `"_"` yields exactly `{"market_data_price_usd": 50000}`. -/
theorem C6_numeric_filter :
    (∀ (data : JDict) (k : String) (v : JVal),
      (k, v) ∈ metrics_flat_row data ↔
        ((k, v) ∈ flatten data "" "_" ∧ is_not_none v = true ∧
          (isinstance_int v || isinstance_float v) = true)) ∧
    metrics_flat_row [("market_data", JVal.vdict
        [("price_usd", JVal.vint 50000), ("volume", JVal.vnull)])]
      = [("market_data_price_usd", JVal.vint 50000)] := by
  constructor
  · intro data k v
    unfold metrics_flat_row
    simp only [List.mem_filter, and_assoc]
  · simp [metrics_flat_row, flatten, flattenItems, dictOf, dictUpdate, keys,
      new_key, is_not_none, isinstance_int, isinstance_float]

/-- C10: the numeric post-filter retains boolean-valued fields: Python's
`bool` is a subclass of `int`, so `isinstance(v, int)` holds for booleans
and every boolean entry of the flattened record survives the filter. -/
theorem C10_bool_retained (data : JDict) (k : String) (b : Bool)
    (h : (k, JVal.vbool b) ∈ flatten data "" "_") :
    (k, JVal.vbool b) ∈ metrics_flat_row data := by
  unfold metrics_flat_row
  simp only [List.mem_filter]
  exact ⟨⟨h, rfl⟩, rfl⟩

theorem C10_witness :
    (("flag", JVal.vbool true) ∈ flatten [("flag", JVal.vbool true)] "" "_") ∧
    ("flag", JVal.vbool true) ∈ metrics_flat_row [("flag", JVal.vbool true)] := by
  have hmem : ("flag", JVal.vbool true) ∈ flatten [("flag", JVal.vbool true)] "" "_" := by
    rw [show flatten [("flag", JVal.vbool true)] "" "_"
        = [("flag", JVal.vbool true)] from by
      simp [flatten, flattenItems, dictOf, dictUpdate, keys, new_key]]
    simp
  exact ⟨hmem, C10_bool_retained [("flag", JVal.vbool true)] "flag" true hmem⟩
